import Mathlib

/-!
Verification of the notebook `Tutorial 8 Spin and Sparse` (file
`General Scripts/.ipynb_checkpoints/Tutorial 8 Spin and Sparse-checkpoint.ipynb`).

The notebook builds a 4x4 spin Hamiltonian from Kronecker products of spin
matrices, diagonalizes it, and then compares dense and sparse matrix
representations of a tridiagonal finite-difference matrix.

Shallow embedding conventions:
* numpy 2-d arrays are `NPMat α`: a shape together with a total entry
  function; all matrix operations are entrywise over that function, and
  statements quantify only over in-bounds indices.
* Complex numbers are `CQ`, pairs of rationals: the floating-point decimal
  constants of the notebook are modelled as the exact decimal rationals they
  denote.
* numpy array addition is modelled with its broadcasting rule (`npAdd?`): two
  sizes of a dimension are compatible when they are equal or one of them is 1,
  a size-1 dimension being stretched to the other size (which may be 0);
  incompatible shapes raise, modelled as `none`.
-/

/-- Complex numbers with rational real and imaginary parts, the
exact-arithmetic model of the complex float entries in the notebook. -/
structure CQ where
  re : ℚ
  im : ℚ
  deriving DecidableEq

namespace CQ

def ofRat (q : ℚ) : CQ := ⟨q, 0⟩

instance : Zero CQ := ⟨⟨0, 0⟩⟩
instance : One CQ := ⟨⟨1, 0⟩⟩
instance : Add CQ := ⟨fun a b => ⟨a.re + b.re, a.im + b.im⟩⟩
instance : Neg CQ := ⟨fun a => ⟨-a.re, -a.im⟩⟩
instance : Mul CQ := ⟨fun a b => ⟨a.re * b.re - a.im * b.im, a.re * b.im + a.im * b.re⟩⟩

/-- The imaginary unit, written `1j` in the notebook. -/
def iu : CQ := ⟨0, 1⟩

/-- Complex conjugate. -/
def conj (a : CQ) : CQ := ⟨a.re, -a.im⟩

@[simp] theorem zero_re : (0 : CQ).re = 0 := rfl
@[simp] theorem zero_im : (0 : CQ).im = 0 := rfl
@[simp] theorem one_re : (1 : CQ).re = 1 := rfl
@[simp] theorem one_im : (1 : CQ).im = 0 := rfl
@[simp] theorem add_re (a b : CQ) : (a + b).re = a.re + b.re := rfl
@[simp] theorem add_im (a b : CQ) : (a + b).im = a.im + b.im := rfl
@[simp] theorem neg_re (a : CQ) : (-a).re = -a.re := rfl
@[simp] theorem neg_im (a : CQ) : (-a).im = -a.im := rfl
@[simp] theorem mul_re (a b : CQ) : (a * b).re = a.re * b.re - a.im * b.im := rfl
@[simp] theorem mul_im (a b : CQ) : (a * b).im = a.re * b.im + a.im * b.re := rfl
@[simp] theorem conj_re (a : CQ) : (conj a).re = a.re := rfl
@[simp] theorem conj_im (a : CQ) : (conj a).im = -a.im := rfl
@[simp] theorem ofRat_re (q : ℚ) : (ofRat q).re = q := rfl
@[simp] theorem ofRat_im (q : ℚ) : (ofRat q).im = 0 := rfl
@[simp] theorem iu_re : iu.re = 0 := rfl
@[simp] theorem iu_im : iu.im = 1 := rfl

theorem eq_iff (a b : CQ) : a = b ↔ a.re = b.re ∧ a.im = b.im := by
  constructor
  · rintro rfl; exact ⟨rfl, rfl⟩
  · rcases a with ⟨ar, ai⟩
    rcases b with ⟨br, bi⟩
    rintro ⟨h1, h2⟩
    simp_all

end CQ

/-- A numpy 2-d array: a shape plus a total entry function.  Only entries with
`i < rows` and `j < cols` are meaningful. -/
structure NPMat (α : Type) where
  rows : ℕ
  cols : ℕ
  entry : ℕ → ℕ → α

namespace NPMat

/-- Build a matrix from a rectangular list of rows (`np.array` on a literal). -/
def ofList [Zero α] (l : List (List α)) : NPMat α :=
  ⟨l.length, (l.headD []).length, fun i j => ((l.getD i []).getD j 0)⟩

/-- Model of `np.kron`, the Kronecker product.  Entry `(i, j)` of `kron A B` is
`A[i / B.rows, j / B.cols] * B[i % B.rows, j % B.cols]`. -/
def kron [Mul α] (M N : NPMat α) : NPMat α :=
  ⟨M.rows * N.rows, M.cols * N.cols,
   fun i j => M.entry (i / N.rows) (j / N.cols) * N.entry (i % N.rows) (j % N.cols)⟩

/-- numpy `+` on two arrays of identical shape (the shapes always match where
this is used in the spin section). -/
def addT [Add α] (M N : NPMat α) : NPMat α :=
  ⟨M.rows, M.cols, fun i j => M.entry i j + N.entry i j⟩

/-- numpy scalar-times-array. -/
def smulC [Mul α] (c : α) (M : NPMat α) : NPMat α :=
  ⟨M.rows, M.cols, fun i j => c * M.entry i j⟩

/-- Conjugate transpose (`.conj().T`); used to state Hermiticity. -/
def ctranspose (M : NPMat CQ) : NPMat CQ :=
  ⟨M.cols, M.rows, fun i j => CQ.conj (M.entry j i)⟩

/-- Entrywise equality on the common shape: same shape and equal entries at
every in-bounds index. -/
def eqOn [DecidableEq α] (M N : NPMat α) : Prop :=
  M.rows = N.rows ∧ M.cols = N.cols ∧
    ∀ i < M.rows, ∀ j < M.cols, M.entry i j = N.entry i j

instance [DecidableEq α] (M N : NPMat α) : Decidable (M.eqOn N) := by
  unfold eqOn; infer_instance

end NPMat

/-! ### Constants of the notebook (cell 4), floats read as exact decimals. -/

/-- Electron charge (C): `e = 1.6e-19`. -/
def e : ℚ := 16 / 10 ^ 20

/-- Planck constant (Js): `h = 6.625e-34`. -/
def h : ℚ := 6625 / 10 ^ 37

/-- Electron Lande g factor: `ge = 1.9987213544`. -/
def ge : ℚ := 19987213544 / 10 ^ 10

/-- Neutron Lande g factor: `gn = -2.26`. -/
def gn : ℚ := -226 / 100

/-- Bohr magneton (eV/T): `mu_B = 5.7962605e-5`. -/
def mu_B : ℚ := 57962605 / 10 ^ 12

/-- Nuclear magneton (eV/T): `mu_n = 3.156739525e-8`. -/
def mu_n : ℚ := 3156739525 / 10 ^ 17

/-- Magnetic field strength vector (Tesla): `B = np.array([1, 1, 0])`. -/
def B : List ℚ := [1, 1, 0]

/-- Fermi contact hyperfine constant (Hz): `A = 117e6`. -/
def A : ℚ := 117 * 10 ^ 6

/-- Identity matrix: `I = np.diag([1]*2)`. -/
def I : NPMat CQ := NPMat.ofList [[1, 0], [0, 1]]

/-! ### Spin matrices (cell 6): Pauli matrices times 1/2. -/

/-- Cell 6: `X = 0.5*np.array([[0,1],[1,0]])`. -/
def X : NPMat CQ := NPMat.smulC (CQ.ofRat (1/2)) (NPMat.ofList [[0, 1], [1, 0]])

/-- Cell 6: `Y = 0.5*np.array([[0, -1j],[1j, 0]])`. -/
def Y : NPMat CQ := NPMat.smulC (CQ.ofRat (1/2)) (NPMat.ofList [[0, -CQ.iu], [CQ.iu, 0]])

/-- Cell 6: `Z = 0.5*np.array([[1, 0], [0, -1]])`. -/
def Z : NPMat CQ := NPMat.smulC (CQ.ofRat (1/2)) (NPMat.ofList [[1, 0], [0, -1]])

/-! ### Hamiltonian assembly (cells 9 and 11). -/

/-- Cell 9: `H_zn = gn*mu_n*(B[0]*np.kron(X, I)+B[1]*np.kron(Y, I)+ B[2]*np.kron(Z, I))` (eV). -/
def H_zn : NPMat CQ :=
  NPMat.smulC (CQ.ofRat (gn * mu_n))
    (NPMat.addT
      (NPMat.addT (NPMat.smulC (CQ.ofRat (B.getD 0 0)) (NPMat.kron X I))
                  (NPMat.smulC (CQ.ofRat (B.getD 1 0)) (NPMat.kron Y I)))
      (NPMat.smulC (CQ.ofRat (B.getD 2 0)) (NPMat.kron Z I)))

/-- Cell 11: `H_ze = ge*mu_B*(B[0]*np.kron(I, X)+B[1]*np.kron(I, Y)+ B[2]*np.kron(I, Z))` (eV). -/
def H_ze : NPMat CQ :=
  NPMat.smulC (CQ.ofRat (ge * mu_B))
    (NPMat.addT
      (NPMat.addT (NPMat.smulC (CQ.ofRat (B.getD 0 0)) (NPMat.kron I X))
                  (NPMat.smulC (CQ.ofRat (B.getD 1 0)) (NPMat.kron I Y)))
      (NPMat.smulC (CQ.ofRat (B.getD 2 0)) (NPMat.kron I Z)))

/-- Cell 11: `H_z = (H_zn + H_ze)*e/h` (Hz); python evaluates this as
`((H_zn + H_ze)*e)/h`. -/
def H_z : NPMat CQ :=
  NPMat.smulC (CQ.ofRat (1 / h)) (NPMat.smulC (CQ.ofRat e) (NPMat.addT H_zn H_ze))

/-- Cell 11: `H_hf = A*(np.kron(X, X) + np.kron(Y, Y) + np.kron(Z, Z))` (Hz). -/
def H_hf : NPMat CQ :=
  NPMat.smulC (CQ.ofRat A)
    (NPMat.addT (NPMat.addT (NPMat.kron X X) (NPMat.kron Y Y)) (NPMat.kron Z Z))

/-- Cell 11: `H = H_z + H_hf`, the assembled 4x4 spin Hamiltonian.  Named
`H_spin` because the notebook later rebinds `H` to the finite-difference
matrix. -/
def H_spin : NPMat CQ := NPMat.addT H_z H_hf

/-! ### Claim-side restatement of the Hamiltonian, following the wording of the
specification ("X, Y, Z are one half times the Pauli matrices and I is the 2x2
identity"; the Zeeman sum is "converted from eV to Hz by the factor e/h").
These definitions exist only to be compared with the source-side construction
above. -/

/-- The Pauli matrix sigma_x. -/
def pauliX : NPMat CQ := NPMat.ofList [[0, 1], [1, 0]]

/-- The Pauli matrix sigma_y. -/
def pauliY : NPMat CQ := NPMat.ofList [[0, -CQ.iu], [CQ.iu, 0]]

/-- The Pauli matrix sigma_z. -/
def pauliZ : NPMat CQ := NPMat.ofList [[1, 0], [0, -1]]

/-- The 2x2 identity matrix. -/
def ident2 : NPMat CQ := NPMat.ofList [[1, 0], [0, 1]]

/-- One half times sigma_x. -/
def specX : NPMat CQ := NPMat.smulC (CQ.ofRat (1/2)) pauliX

/-- One half times sigma_y. -/
def specY : NPMat CQ := NPMat.smulC (CQ.ofRat (1/2)) pauliY

/-- One half times sigma_z. -/
def specZ : NPMat CQ := NPMat.smulC (CQ.ofRat (1/2)) pauliZ

/-- Claim-side nuclear Zeeman term
`gn*mu_n*(B[0]*kron(X,I) + B[1]*kron(Y,I) + B[2]*kron(Z,I))`. -/
def spec_H_zn : NPMat CQ :=
  NPMat.smulC (CQ.ofRat (gn * mu_n))
    (NPMat.addT
      (NPMat.addT (NPMat.smulC (CQ.ofRat (B.getD 0 0)) (NPMat.kron specX ident2))
                  (NPMat.smulC (CQ.ofRat (B.getD 1 0)) (NPMat.kron specY ident2)))
      (NPMat.smulC (CQ.ofRat (B.getD 2 0)) (NPMat.kron specZ ident2)))

/-- Claim-side electron Zeeman term
`ge*mu_B*(B[0]*kron(I,X) + B[1]*kron(I,Y) + B[2]*kron(I,Z))`. -/
def spec_H_ze : NPMat CQ :=
  NPMat.smulC (CQ.ofRat (ge * mu_B))
    (NPMat.addT
      (NPMat.addT (NPMat.smulC (CQ.ofRat (B.getD 0 0)) (NPMat.kron ident2 specX))
                  (NPMat.smulC (CQ.ofRat (B.getD 1 0)) (NPMat.kron ident2 specY)))
      (NPMat.smulC (CQ.ofRat (B.getD 2 0)) (NPMat.kron ident2 specZ)))

/-- Claim-side hyperfine term `A*(kron(X,X) + kron(Y,Y) + kron(Z,Z))`. -/
def spec_H_hf : NPMat CQ :=
  NPMat.smulC (CQ.ofRat A)
    (NPMat.addT (NPMat.addT (NPMat.kron specX specX) (NPMat.kron specY specY))
                (NPMat.kron specZ specZ))

/-- Claim-side assembled Hamiltonian: the Zeeman terms converted from eV to Hz
by the factor `e/h`, plus the hyperfine term. -/
def spec_H : NPMat CQ :=
  NPMat.addT (NPMat.smulC (CQ.ofRat (e / h)) (NPMat.addT spec_H_zn spec_H_ze)) spec_H_hf

set_option maxHeartbeats 3200000 in
/-- C1: the assembled 4x4 spin Hamiltonian `H = (H_zn + H_ze)*e/h + H_hf`, built
from the Kronecker-product spin terms with constants `ge`, `gn`, `mu_B`, `mu_n`,
`A` and field `B = [1, 1, 0]`, is Hermitian: it equals its conjugate transpose
entrywise. -/
theorem spin_hamiltonian_hermitian : (NPMat.ctranspose H_spin).eqOn H_spin := by
  refine ⟨rfl, rfl, ?_⟩
  intro i hi j hj
  have hi4 : i < 4 := hi
  have hj4 : j < 4 := hj
  clear hi hj
  interval_cases i <;> interval_cases j <;>
    simp only [CQ.eq_iff, H_spin, H_z, H_zn, H_ze, H_hf, X, Y, Z, I, B, NPMat.kron,
      NPMat.addT, NPMat.smulC, NPMat.ctranspose, NPMat.ofList, CQ.ofRat,
      List.length_cons, List.length_nil, List.headD_cons,
      List.getD_cons_zero, List.getD_cons_succ, Nat.reduceDiv, Nat.reduceMod,
      Nat.reduceAdd,
      CQ.add_re, CQ.add_im, CQ.mul_re, CQ.mul_im, CQ.neg_re, CQ.neg_im,
      CQ.conj_re, CQ.conj_im, CQ.zero_re, CQ.zero_im, CQ.one_re, CQ.one_im,
      CQ.iu_re, CQ.iu_im] <;>
    constructor <;> ring

set_option maxHeartbeats 3200000 in
/-- C2: the spin Hamiltonian built by the notebook agrees entrywise with the
claim-side construction: the sum of the nuclear Zeeman term, the electron
Zeeman term (both converted from eV to Hz by the factor `e/h`) and the
hyperfine term, where `X`, `Y`, `Z` are one half times the Pauli matrices and
`I` is the 2x2 identity. -/
theorem spin_hamiltonian_construction : H_spin.eqOn spec_H := by
  refine ⟨rfl, rfl, ?_⟩
  intro i hi j hj
  have hi4 : i < 4 := hi
  have hj4 : j < 4 := hj
  clear hi hj
  interval_cases i <;> interval_cases j <;>
    simp only [CQ.eq_iff, H_spin, H_z, H_zn, H_ze, H_hf, X, Y, Z, I, B,
      spec_H, spec_H_zn, spec_H_ze, spec_H_hf, specX, specY, specZ,
      pauliX, pauliY, pauliZ, ident2, NPMat.kron,
      NPMat.addT, NPMat.smulC, NPMat.ctranspose, NPMat.ofList, CQ.ofRat,
      List.length_cons, List.length_nil, List.headD_cons,
      List.getD_cons_zero, List.getD_cons_succ, Nat.reduceDiv, Nat.reduceMod,
      Nat.reduceAdd,
      CQ.add_re, CQ.add_im, CQ.mul_re, CQ.mul_im, CQ.neg_re, CQ.neg_im,
      CQ.conj_re, CQ.conj_im, CQ.zero_re, CQ.zero_im, CQ.one_re, CQ.one_im,
      CQ.iu_re, CQ.iu_im] <;>
    constructor <;> ring

/-! ### Sparse matrix and benchmarking section (cells 15 onwards), over ℚ. -/

/-- Model of `np.diag(v, k)`: square matrix of size `len(v) + |k|` with `v`
on the `k`-th diagonal and zeros elsewhere. -/
def npDiag (v : List ℚ) (k : ℤ) : NPMat ℚ :=
  ⟨v.length + k.natAbs, v.length + k.natAbs,
   fun i j => if (j : ℤ) - (i : ℤ) = k then v.getD (min i j) 0 else 0⟩

/-- The broadcast size of one dimension under numpy broadcasting: a size-1
dimension stretches to the other size (which may be 0). -/
def bcastDim (a b : ℕ) : ℕ := if a = 1 then b else a

/-- numpy `+` on two 2-d arrays, including broadcasting: two sizes of a
dimension are compatible when they are equal or one of them is 1; a size-1
dimension is stretched to the other size, reading its only index 0 (here via
`% 1`).  Incompatible shapes raise, modelled as `none`. -/
def npAdd? (M N : NPMat ℚ) : Option (NPMat ℚ) :=
  if (M.rows = N.rows ∨ M.rows = 1 ∨ N.rows = 1) ∧
      (M.cols = N.cols ∨ M.cols = 1 ∨ N.cols = 1) then
    some ⟨bcastDim M.rows N.rows, bcastDim M.cols N.cols,
      fun i j =>
        M.entry (i % M.rows) (j % M.cols) + N.entry (i % N.rows) (j % N.cols)⟩
  else none

/-- Broadcasting two equal sizes gives that size back. -/
theorem bcastDim_eq_left (a b : ℕ) (hab : a = b) : bcastDim a b = a := by
  subst hab
  simp [bcastDim]

/-- On equal shapes, broadcast addition is plain entrywise addition (the `%`
reads are the identity at in-bounds indices). -/
theorem npAdd?_same (M N : NPMat ℚ) (hr : M.rows = N.rows) (hc : M.cols = N.cols) :
    npAdd? M N = some ⟨M.rows, M.cols,
      fun i j =>
        M.entry (i % M.rows) (j % M.cols) + N.entry (i % N.rows) (j % N.cols)⟩ := by
  unfold npAdd?
  rw [if_pos ⟨Or.inl hr, Or.inl hc⟩, bcastDim_eq_left M.rows N.rows hr,
      bcastDim_eq_left M.cols N.cols hc]

/-- On two matrices of the same square shape, broadcast addition succeeds and
adds entrywise at every in-bounds index. -/
theorem npAdd?_same_spec (M N : NPMat ℚ) (n : ℕ) (hr1 : M.rows = n)
    (hc1 : M.cols = n) (hr2 : N.rows = n) (hc2 : N.cols = n) :
    ∃ S, npAdd? M N = some S ∧ S.rows = n ∧ S.cols = n ∧
      ∀ i < n, ∀ j < n, S.entry i j = M.entry i j + N.entry i j := by
  refine ⟨_, npAdd?_same M N (by omega) (by omega), hr1, hc1, ?_⟩
  intro i hi j hj
  show M.entry (i % M.rows) (j % M.cols) + N.entry (i % N.rows) (j % N.cols) = _
  rw [hr1, hc1, hr2, hc2, Nat.mod_eq_of_lt hi, Nat.mod_eq_of_lt hj]

/-- Cell 15:
`def forward_diff_mat(nodes): return np.diag([-2]*nodes,0) + np.diag([1]*(nodes-1),1) + np.diag([1]*(nodes-1),-1)`.
In python, `[1]*(nodes-1)` for `nodes = 0` is the empty list, as is
`List.replicate (0 - 1) 1` under truncated ℕ subtraction. -/
def forward_diff_mat (nodes : ℕ) : Option (NPMat ℚ) :=
  (npAdd? (npDiag (List.replicate nodes (-2)) 0)
          (npDiag (List.replicate (nodes - 1) 1) 1)).bind
    fun s => npAdd? s (npDiag (List.replicate (nodes - 1) 1) (-1))

/-- The zero-size matrix, used only as the default when destructing the
`Option` returned by `forward_diff_mat` at an argument where it succeeds. -/
def emptyMat : NPMat ℚ := ⟨0, 0, fun _ _ => 0⟩

/-- Cell 16 / cell 27: `H = -20*forward_diff_mat(500)`. -/
def H500 : NPMat ℚ := NPMat.smulC (-20) ((forward_diff_mat 500).getD emptyMat)

/-- Reading a replicated list within bounds gives the replicated value. -/
theorem getD_replicate_of_lt {α : Type} (a d : α) :
    ∀ {n i : ℕ}, i < n → (List.replicate n a).getD i d = a := by
  intro n
  induction n with
  | zero => intro i hlt; omega
  | succ m ih =>
      intro i hlt
      cases i with
      | zero => simp [List.replicate]
      | succ i2 =>
          rw [List.replicate_succ, List.getD_cons_succ]
          exact ih (by omega)

/-- For `nodes ≥ 1`, `forward_diff_mat nodes` succeeds and returns the
`nodes × nodes` tridiagonal matrix with `-2` on the diagonal and `1` on the
two adjacent diagonals.  Shared backbone for the claims about
`forward_diff_mat`. -/
theorem forward_diff_mat_spec (nodes : ℕ) (h1 : 1 ≤ nodes) :
    ∃ M, forward_diff_mat nodes = some M ∧ M.rows = nodes ∧ M.cols = nodes ∧
      ∀ i < nodes, ∀ j < nodes,
        M.entry i j = if i = j then -2 else if i + 1 = j ∨ j + 1 = i then 1 else 0 := by
  obtain ⟨m, rfl⟩ : ∃ m, nodes = m + 1 := ⟨nodes - 1, by omega⟩
  obtain ⟨S1, hS1, hS1r, hS1c, hS1e⟩ :=
    npAdd?_same_spec (npDiag (List.replicate (m + 1) (-2)) 0)
      (npDiag (List.replicate m 1) 1) (m + 1)
      (by simp [npDiag, List.length_replicate])
      (by simp [npDiag, List.length_replicate])
      (by simp [npDiag, List.length_replicate])
      (by simp [npDiag, List.length_replicate])
  obtain ⟨S2, hS2, hS2r, hS2c, hS2e⟩ :=
    npAdd?_same_spec S1 (npDiag (List.replicate m 1) (-1)) (m + 1) hS1r hS1c
      (by simp [npDiag, List.length_replicate])
      (by simp [npDiag, List.length_replicate])
  refine ⟨S2, ?_, hS2r, hS2c, ?_⟩
  · unfold forward_diff_mat
    simp only [Nat.add_sub_cancel]
    rw [hS1, Option.some_bind, hS2]
  · intro i hi j hj
    rw [hS2e i hi j hj, hS1e i hi j hj]
    simp only [npDiag]
    split_ifs <;>
      first
        | omega
        | (rw [getD_replicate_of_lt _ _ (by omega)] <;> norm_num)
        | norm_num

/-- C3: for every `nodes ≥ 1`, `forward_diff_mat nodes` returns the
`nodes`-by-`nodes` tridiagonal matrix whose entry at `(i, j)` is `-2` when
`i = j`, `1` when `|i - j| = 1`, and `0` otherwise. -/
theorem forward_diff_mat_tridiagonal (nodes : ℕ) (h1 : 1 ≤ nodes) :
    ∃ M, forward_diff_mat nodes = some M ∧ M.rows = nodes ∧ M.cols = nodes ∧
      ∀ i < nodes, ∀ j < nodes,
        M.entry i j = if i = j then -2 else if i + 1 = j ∨ j + 1 = i then 1 else 0 :=
  forward_diff_mat_spec nodes h1

/-- Witness for C3 at `nodes = 3`. -/
theorem forward_diff_mat_tridiagonal_witness :
    1 ≤ 3 ∧
      ∃ M, forward_diff_mat 3 = some M ∧ M.rows = 3 ∧ M.cols = 3 ∧
        ∀ i < 3, ∀ j < 3,
          M.entry i j = if i = j then -2 else if i + 1 = j ∨ j + 1 = i then 1 else 0 :=
  ⟨by decide, forward_diff_mat_tridiagonal 3 (by decide)⟩

/-- C9: for every `nodes ≥ 1`, the matrix returned by `forward_diff_mat nodes`
is symmetric: entry `(i, j)` equals entry `(j, i)` at every in-bounds index,
and the matrix is square. -/
theorem forward_diff_mat_symmetric (nodes : ℕ) (h1 : 1 ≤ nodes) :
    ∃ M, forward_diff_mat nodes = some M ∧ M.rows = M.cols ∧
      ∀ i < nodes, ∀ j < nodes, M.entry i j = M.entry j i := by
  obtain ⟨M, hM, hr, hc, hent⟩ := forward_diff_mat_spec nodes h1
  refine ⟨M, hM, hr.trans hc.symm, ?_⟩
  intro i hi j hj
  rw [hent i hi j hj, hent j hj i hi]
  split_ifs <;> first | rfl | omega

/-- Witness for C9 at `nodes = 2`. -/
theorem forward_diff_mat_symmetric_witness :
    1 ≤ 2 ∧
      ∃ M, forward_diff_mat 2 = some M ∧ M.rows = M.cols ∧
        ∀ i < 2, ∀ j < 2, M.entry i j = M.entry j i :=
  ⟨by decide, forward_diff_mat_symmetric 2 (by decide)⟩

/-- The value of `forward_diff_mat 0`: numpy broadcasting stretches the 1x1
off-diagonal terms against the 0x0 main-diagonal term, giving an empty 0x0
matrix. -/
def fdm0 : NPMat ℚ := (forward_diff_mat 0).getD emptyMat

/-- C10 counterexample: `forward_diff_mat 0` does not fail with a shape
mismatch; it returns the empty 0x0 matrix. -/
theorem forward_diff_mat_zero_not_error :
    forward_diff_mat 0 = some fdm0 ∧ fdm0.rows = 0 ∧ fdm0.cols = 0 :=
  ⟨rfl, rfl, rfl⟩

/-- C10 amended: at `nodes = 0` the main-diagonal term of `forward_diff_mat`
is a 0x0 matrix while the off-diagonal terms are 1x1 (in python `[1]*(0-1)` is
the empty list, and `np.diag([], 1)` is 1x1); numpy broadcasting stretches the
size-1 dimensions against the size-0 ones, so `forward_diff_mat 0` returns an
empty 0x0 matrix rather than raising an error. -/
theorem forward_diff_mat_zero_broadcast :
    (npDiag (List.replicate 0 (-2)) 0).rows = 0 ∧
      (npDiag (List.replicate (0 - 1) 1) 1).rows = 1 ∧
      (npDiag (List.replicate (0 - 1) 1) (-1)).rows = 1 ∧
      forward_diff_mat 0 = some fdm0 ∧ fdm0.rows = 0 ∧ fdm0.cols = 0 :=
  ⟨rfl, rfl, rfl, rfl, rfl, rfl⟩

/-! ### Sparse representations (cell 16): a sparse matrix stores the shape and
the list of `(row, column, value)` triples of the nonzero entries of the dense
matrix it was built from.  CSR, LIL and DOK enumerate the nonzeros row-major;
CSC enumerates them column-major. -/

/-- A scipy sparse matrix: shape plus stored nonzero triples. -/
structure SparseMat where
  rows : ℕ
  cols : ℕ
  data : List (ℕ × ℕ × ℚ)

/-- The nonzero triples of row `i` of `M`, in column order. -/
def rowNonzeros (M : NPMat ℚ) (i : ℕ) : List (ℕ × ℕ × ℚ) :=
  (List.range M.cols).filterMap fun j =>
    if M.entry i j = 0 then none else some (i, j, M.entry i j)

/-- The nonzero triples of column `j` of `M`, in row order. -/
def colNonzeros (M : NPMat ℚ) (j : ℕ) : List (ℕ × ℕ × ℚ) :=
  (List.range M.rows).filterMap fun i =>
    if M.entry i j = 0 then none else some (i, j, M.entry i j)

/-- Model of `sparse.csr_matrix(M)`: compressed sparse row, nonzeros stored
row-major. -/
def csr_matrix (M : NPMat ℚ) : SparseMat :=
  ⟨M.rows, M.cols, (List.range M.rows).flatMap fun i => rowNonzeros M i⟩

/-- Model of `sparse.csc_matrix(M)`: compressed sparse column, nonzeros stored
column-major. -/
def csc_matrix (M : NPMat ℚ) : SparseMat :=
  ⟨M.rows, M.cols, (List.range M.cols).flatMap fun j => colNonzeros M j⟩

/-- Model of `sparse.lil_matrix(M)`: list-of-lists rows, nonzeros stored
row-major. -/
def lil_matrix (M : NPMat ℚ) : SparseMat :=
  ⟨M.rows, M.cols, (List.range M.rows).flatMap fun i => rowNonzeros M i⟩

/-- Model of `sparse.dok_matrix(M)`: dictionary of keys, keyed by the
row-major enumeration of the nonzeros. -/
def dok_matrix (M : NPMat ℚ) : SparseMat :=
  ⟨M.rows, M.cols, (List.range M.rows).flatMap fun i => rowNonzeros M i⟩

/-- Model of `.todense()`: rebuild a dense matrix, looking each position up
among the stored triples and defaulting to `0`. -/
def SparseMat.todense (S : SparseMat) : NPMat ℚ :=
  ⟨S.rows, S.cols, fun i j =>
    match S.data.find? (fun t => t.1 == i && t.2.1 == j) with
    | some t => t.2.2
    | none => 0⟩

/-- Model of `np.mean(M)`: the sum of all entries divided by the number of
entries. -/
def npMean (M : NPMat ℚ) : ℚ :=
  (((List.range M.rows).map fun i =>
      ((List.range M.cols).map fun j => M.entry i j).sum).sum) / (M.rows * M.cols)

/-- Model of `.mean()` on a sparse matrix: the sum of the stored values divided by the
number of positions. -/
def SparseMat.mean (S : SparseMat) : ℚ :=
  ((S.data.map fun t => t.2.2).sum) / (S.rows * S.cols)

/-! ### Lookup lemmas for the round-trip claim. -/

/-- Looking a column `j` up in the nonzero triples of row `i` finds exactly the
nonzero entry at `(i, j)`, if any. -/
theorem find_rowNonzeros_aux (entryf : ℕ → ℚ) (i j : ℕ) :
    ∀ l : List ℕ, l.Nodup →
      ((l.filterMap fun j2 =>
          if entryf j2 = 0 then none else some (i, j2, entryf j2)).find?
        (fun t => t.1 == i && t.2.1 == j)) =
        if j ∈ l ∧ entryf j ≠ 0 then some (i, j, entryf j) else none := by
  intro l
  induction l with
  | nil => simp
  | cons a t ih =>
      intro hnd
      have hat : a ∉ t := (List.nodup_cons.mp hnd).1
      have ht : t.Nodup := (List.nodup_cons.mp hnd).2
      by_cases ha : entryf a = 0
      · rw [List.filterMap_cons_none (by rw [if_pos ha]), ih ht]
        by_cases hja : j = a
        · subst hja
          have hnj : j ∉ t := hat
          simp [hnj, ha]
        · simp [List.mem_cons, hja]
      · rw [List.filterMap_cons_some (by rw [if_neg ha])]
        by_cases hja : j = a
        · subst hja
          rw [List.find?_cons_of_pos _ (by simp)]
          simp [ha]
        · rw [List.find?_cons_of_neg _ (by simp; omega), ih ht]
          simp [List.mem_cons, hja]

/-- A block of triples of row `r` contains no triple of a different row `i`. -/
theorem find_rowNonzeros_ne (M : NPMat ℚ) (r i j : ℕ) (hne : r ≠ i) :
    ((rowNonzeros M r).find? (fun t => t.1 == i && t.2.1 == j)) = none := by
  rw [List.find?_eq_none]
  intro x hx
  rcases List.mem_filterMap.mp hx with ⟨a, _, hfa⟩
  by_cases ha : M.entry r a = 0
  · simp [ha] at hfa
  · rw [if_neg ha] at hfa
    cases hfa
    simp [hne]

/-- Looking a position up in the row-major nonzero triples of `M` reduces to
the lookup inside the block of its row. -/
theorem find_csr_blocks (M : NPMat ℚ) (i j : ℕ) :
    ∀ L : List ℕ,
      ((L.flatMap fun r => rowNonzeros M r).find? (fun t => t.1 == i && t.2.1 == j)) =
        if i ∈ L then (rowNonzeros M i).find? (fun t => t.1 == i && t.2.1 == j)
          else none := by
  intro L
  induction L with
  | nil => simp
  | cons a t ih =>
      rw [List.flatMap_cons, List.find?_append, ih]
      by_cases hai : a = i
      · subst hai
        simp only [List.mem_cons, true_or, if_pos rfl]
        by_cases hblock :
            ((rowNonzeros M a).find? (fun t => t.1 == a && t.2.1 == j)) = none
        · rw [hblock]
          split_ifs <;> simp [Option.or]
        · rcases Option.ne_none_iff_exists.mp hblock with ⟨v, hv⟩
          rw [← hv]
          simp [Option.or]
      · rw [find_rowNonzeros_ne M a i j hai]
        simp [List.mem_cons, Ne.symm hai, Option.or]

/-- C5 backbone: converting any dense matrix to the nonzero-triple sparse form
and back yields the same matrix entrywise. -/
theorem todense_csr (M : NPMat ℚ) : ((csr_matrix M).todense).eqOn M := by
  refine ⟨rfl, rfl, ?_⟩
  intro i hi j hj
  have hi2 : i < M.rows := hi
  have hj2 : j < M.cols := hj
  show (match ((csr_matrix M).data.find? (fun t => t.1 == i && t.2.1 == j)) with
        | some t => t.2.2
        | none => 0) = M.entry i j
  have hrow :
      ((csr_matrix M).data.find? (fun t => t.1 == i && t.2.1 == j)) =
        if j ∈ List.range M.cols ∧ M.entry i j ≠ 0
          then some (i, j, M.entry i j) else none := by
    show (((List.range M.rows).flatMap fun r => rowNonzeros M r).find?
        (fun t => t.1 == i && t.2.1 == j)) = _
    rw [find_csr_blocks M i j (List.range M.rows),
        if_pos (List.mem_range.mpr hi2)]
    exact find_rowNonzeros_aux (M.entry i) i j (List.range M.cols)
      (List.nodup_range M.cols)
  rw [hrow]
  by_cases hz : M.entry i j = 0
  · simp [hz]
  · simp [List.mem_range.mpr hj2, hz]

/-- C5: converting the dense matrix `H = -20*forward_diff_mat(500)` to a CSR
sparse matrix and back with `.todense()` yields a matrix equal to `H`
entrywise. -/
theorem csr_roundtrip_H500 : ((csr_matrix H500).todense).eqOn H500 :=
  todense_csr H500

/-! ### Sum lemmas for the mean claim. -/

/-- The stored values of a row block sum to the full row sum: the dropped
entries are exactly the zeros. -/
theorem sum_rowNonzeros_aux (entryf : ℕ → ℚ) (i : ℕ) :
    ∀ l : List ℕ,
      (((l.filterMap fun j2 =>
          if entryf j2 = 0 then none else some (i, j2, entryf j2)).map
            fun t => t.2.2).sum) = (l.map entryf).sum := by
  intro l
  induction l with
  | nil => simp
  | cons a l2 ih =>
      by_cases ha : entryf a = 0
      · rw [List.filterMap_cons_none (by rw [if_pos ha]), ih]
        simp [ha]
      · rw [List.filterMap_cons_some (by rw [if_neg ha])]
        simp only [List.map_cons, List.sum_cons, ih]

/-- The stored values of a column block sum to the full column sum. -/
theorem sum_colNonzeros_aux (entryf : ℕ → ℚ) (j : ℕ) :
    ∀ l : List ℕ,
      (((l.filterMap fun i2 =>
          if entryf i2 = 0 then none else some (i2, j, entryf i2)).map
            fun t => t.2.2).sum) = (l.map entryf).sum := by
  intro l
  induction l with
  | nil => simp
  | cons a l2 ih =>
      by_cases ha : entryf a = 0
      · rw [List.filterMap_cons_none (by rw [if_pos ha]), ih]
        simp [ha]
      · rw [List.filterMap_cons_some (by rw [if_neg ha])]
        simp only [List.map_cons, List.sum_cons, ih]

/-- Summing the values over a concatenation of blocks is the sum of the
per-block sums. -/
theorem sum_flatMap_blocks (f : ℕ → List (ℕ × ℕ × ℚ)) :
    ∀ L : List ℕ,
      (((L.flatMap f).map fun t => t.2.2).sum) =
        ((L.map fun r => ((f r).map fun t => t.2.2).sum).sum) := by
  intro L
  induction L with
  | nil => simp
  | cons a L2 ih =>
      rw [List.flatMap_cons, List.map_append, List.sum_append, ih,
          List.map_cons, List.sum_cons]

/-- Exchanging the order of a double sum over index ranges. -/
theorem sum_swap_range (c : ℕ) (f : ℕ → ℕ → ℚ) :
    ∀ r : ℕ,
      (((List.range r).map fun i => ((List.range c).map fun j => f i j).sum).sum) =
        (((List.range c).map fun j => ((List.range r).map fun i => f i j).sum).sum) := by
  intro r
  induction r with
  | zero => simp
  | succ m ih =>
      have hinner :
          (fun j => ((List.range m ++ [m]).map fun i => f i j).sum) =
            fun j => ((List.range m).map fun i => f i j).sum + f m j := by
        funext j
        rw [List.map_append, List.sum_append]
        simp
      rw [List.range_succ, List.map_append, List.sum_append, ih, hinner,
          List.sum_map_add]
      simp

/-- The stored values of the row-major sparse form sum to the total entry sum. -/
theorem csr_data_sum (M : NPMat ℚ) :
    (((csr_matrix M).data.map fun t => t.2.2).sum) =
      (((List.range M.rows).map fun i =>
          ((List.range M.cols).map fun j => M.entry i j).sum).sum) := by
  show ((((List.range M.rows).flatMap fun i => rowNonzeros M i).map
      fun t => t.2.2).sum) = _
  rw [sum_flatMap_blocks]
  congr 1
  apply List.map_congr_left
  intro r _
  exact sum_rowNonzeros_aux (M.entry r) r (List.range M.cols)

/-- The stored values of the column-major sparse form sum to the total entry
sum. -/
theorem csc_data_sum (M : NPMat ℚ) :
    (((csc_matrix M).data.map fun t => t.2.2).sum) =
      (((List.range M.rows).map fun i =>
          ((List.range M.cols).map fun j => M.entry i j).sum).sum) := by
  show ((((List.range M.cols).flatMap fun j => colNonzeros M j).map
      fun t => t.2.2).sum) = _
  rw [sum_flatMap_blocks, sum_swap_range]
  congr 1
  apply List.map_congr_left
  intro r _
  exact sum_colNonzeros_aux (fun i2 => M.entry i2 r) r (List.range M.rows)

/-- C6 backbone: every nonzero-triple sparse mean agrees with the dense mean. -/
theorem csr_mean_eq (M : NPMat ℚ) : (csr_matrix M).mean = npMean M := by
  show (((csr_matrix M).data.map fun t => t.2.2).sum) / ((M.rows : ℚ) * M.cols) = _
  rw [csr_data_sum]
  rfl

/-- Column-major counterpart of `csr_mean_eq`. -/
theorem csc_mean_eq (M : NPMat ℚ) : (csc_matrix M).mean = npMean M := by
  show (((csc_matrix M).data.map fun t => t.2.2).sum) / ((M.rows : ℚ) * M.cols) = _
  rw [csc_data_sum]
  rfl

/-- C6: for the matrix `H = -20*forward_diff_mat(500)`, `np.mean(H)` equals the
value returned by `.mean()` on each of its CSC, CSR, LIL and DOK sparse
representations. -/
theorem sparse_means_agree :
    npMean H500 = (csc_matrix H500).mean ∧ npMean H500 = (csr_matrix H500).mean ∧
      npMean H500 = (lil_matrix H500).mean ∧ npMean H500 = (dok_matrix H500).mean :=
  ⟨(csc_mean_eq H500).symm, (csr_mean_eq H500).symm,
   (csr_mean_eq H500).symm, (csr_mean_eq H500).symm⟩

/-! ### Helper functions defined by the notebook.

The notebook contains exactly two `def` statements: `matshow_cbar` (cell 2)
and `forward_diff_mat` (cell 15).  The spin Hamiltonian is assembled inline in
cells 9 and 11, not inside a function. -/

/-- The names of the functions the notebook defines, in order of definition. -/
def notebookFunctionDefs : List String := ["matshow_cbar", "forward_diff_mat"]

/-- C7 counterexample: the notebook does not define three helper functions. -/
theorem notebook_defs_not_three : (notebookFunctionDefs.length == 3) = false := by
  decide

/-- C7 amended: the notebook defines exactly two helper functions — the
colorbar-plot wrapper `matshow_cbar` and the tridiagonal finite-difference
matrix generator `forward_diff_mat`; the spin-Hamiltonian assembly is written
inline in the cells rather than as a helper function. -/
theorem notebook_defs_two :
    notebookFunctionDefs.length = 2 ∧
      notebookFunctionDefs = ["matshow_cbar", "forward_diff_mat"] := ⟨rfl, rfl⟩

/-! ### Determinism of the spin-Hamiltonian computation (cells 6 to 12).

The spin section of the notebook is one straight-line sequence of assignments
plus one call to the library eigensolver.  To state that two runs from the
same constants produce identical outputs we give the section a semantics: an
environment maps the cell variables to matrices, each cell is a statement,
and `Run` is the (relational) execution of the cell list.  The eigensolver is
an external library routine; it enters the semantics as an arbitrary function
parameter `J`, which is exactly the "no persistent state, no concurrency"
reading: its output depends only on its input matrix. -/

/-- The python variables assigned in the spin cells: `I`, `X`, `Y`, `Z`,
`H_zn`, `H_ze`, `H_z`, `H_hf`, `H`, `vals`, `vecs`. -/
inductive SpinVar where
  | vI | vX | vY | vZ | vHzn | vHze | vHz | vHhf | vH | vVals | vVecs
  deriving DecidableEq

/-- Expressions occurring in the spin cells. -/
inductive SpinExpr where
  | lit : NPMat CQ → SpinExpr
  | var : SpinVar → SpinExpr
  | kron : SpinExpr → SpinExpr → SpinExpr
  | add : SpinExpr → SpinExpr → SpinExpr
  | smul : ℚ → SpinExpr → SpinExpr

/-- Variable environments of the notebook kernel. -/
def SpinEnv : Type := SpinVar → Option (NPMat CQ)

/-- The empty environment at the start of the run. -/
def env0 : SpinEnv := fun _ => none

/-- Updating one variable. -/
def updateEnv (env : SpinEnv) (n : SpinVar) (v : NPMat CQ) : SpinEnv :=
  fun m => if m = n then some v else env m

/-- Expression evaluation; a free variable fails. -/
def evalExpr (env : SpinEnv) : SpinExpr → Option (NPMat CQ)
  | .lit M => some M
  | .var n => env n
  | .kron a b =>
      (evalExpr env a).bind fun M => (evalExpr env b).map fun N => NPMat.kron M N
  | .add a b =>
      (evalExpr env a).bind fun M => (evalExpr env b).map fun N => NPMat.addT M N
  | .smul c a => (evalExpr env a).map fun M => NPMat.smulC (CQ.ofRat c) M

/-- Statements: an assignment cell, or the eigensolver call
`vals, vecs = np.linalg.eigh(H)`. -/
inductive SpinStmt where
  | assign : SpinVar → SpinExpr → SpinStmt
  | eigh : SpinVar → SpinVar → SpinVar → SpinStmt

/-- Big-step execution of a list of statements, parameterized by the
eigensolver implementation `J` (`J M = (vals, vecs)`). -/
inductive Run (J : NPMat CQ → NPMat CQ × NPMat CQ) :
    SpinEnv → List SpinStmt → SpinEnv → Prop where
  | done : ∀ env, Run J env [] env
  | assign : ∀ env n x v rest out, evalExpr env x = some v →
      Run J (updateEnv env n v) rest out →
      Run J env (SpinStmt.assign n x :: rest) out
  | eigh : ∀ env n1 n2 s M rest out, env s = some M →
      Run J (updateEnv (updateEnv env n1 (J M).1) n2 (J M).2) rest out →
      Run J env (SpinStmt.eigh n1 n2 s :: rest) out

/-- The spin cells of the notebook as a program: cells 6 (spin matrices and
the identity from cell 4), 9 (`H_zn`), 11 (`H_ze`, `H_z`, `H_hf`, `H`) and 12
(the eigensolver call). -/
def spinProgram : List SpinStmt :=
  [ SpinStmt.assign SpinVar.vI (SpinExpr.lit I),
    SpinStmt.assign SpinVar.vX (SpinExpr.lit X),
    SpinStmt.assign SpinVar.vY (SpinExpr.lit Y),
    SpinStmt.assign SpinVar.vZ (SpinExpr.lit Z),
    SpinStmt.assign SpinVar.vHzn
      (SpinExpr.smul (gn * mu_n)
        (SpinExpr.add
          (SpinExpr.add
            (SpinExpr.smul (B.getD 0 0)
              (SpinExpr.kron (SpinExpr.var SpinVar.vX) (SpinExpr.var SpinVar.vI)))
            (SpinExpr.smul (B.getD 1 0)
              (SpinExpr.kron (SpinExpr.var SpinVar.vY) (SpinExpr.var SpinVar.vI))))
          (SpinExpr.smul (B.getD 2 0)
            (SpinExpr.kron (SpinExpr.var SpinVar.vZ) (SpinExpr.var SpinVar.vI))))),
    SpinStmt.assign SpinVar.vHze
      (SpinExpr.smul (ge * mu_B)
        (SpinExpr.add
          (SpinExpr.add
            (SpinExpr.smul (B.getD 0 0)
              (SpinExpr.kron (SpinExpr.var SpinVar.vI) (SpinExpr.var SpinVar.vX)))
            (SpinExpr.smul (B.getD 1 0)
              (SpinExpr.kron (SpinExpr.var SpinVar.vI) (SpinExpr.var SpinVar.vY))))
          (SpinExpr.smul (B.getD 2 0)
            (SpinExpr.kron (SpinExpr.var SpinVar.vI) (SpinExpr.var SpinVar.vZ))))),
    SpinStmt.assign SpinVar.vHz
      (SpinExpr.smul (1 / h)
        (SpinExpr.smul e
          (SpinExpr.add (SpinExpr.var SpinVar.vHzn) (SpinExpr.var SpinVar.vHze)))),
    SpinStmt.assign SpinVar.vHhf
      (SpinExpr.smul A
        (SpinExpr.add
          (SpinExpr.add
            (SpinExpr.kron (SpinExpr.var SpinVar.vX) (SpinExpr.var SpinVar.vX))
            (SpinExpr.kron (SpinExpr.var SpinVar.vY) (SpinExpr.var SpinVar.vY)))
          (SpinExpr.kron (SpinExpr.var SpinVar.vZ) (SpinExpr.var SpinVar.vZ)))),
    SpinStmt.assign SpinVar.vH
      (SpinExpr.add (SpinExpr.var SpinVar.vHz) (SpinExpr.var SpinVar.vHhf)),
    SpinStmt.eigh SpinVar.vVals SpinVar.vVecs SpinVar.vH ]

/-- Execution is deterministic: from one environment, a statement list reaches
at most one final environment. -/
theorem run_deterministic (J : NPMat CQ → NPMat CQ × NPMat CQ)
    {env : SpinEnv} {p : List SpinStmt} {o1 : SpinEnv} (h1 : Run J env p o1) :
    ∀ {o2 : SpinEnv}, Run J env p o2 → o1 = o2 := by
  induction h1 with
  | done env =>
      intro o2 h2
      cases h2
      rfl
  | assign env n x v rest out hev _ ih =>
      intro o2 h2
      cases h2 with
      | assign _ _ _ v2 _ _ hev2 hrun2 =>
          rw [hev] at hev2
          injection hev2 with hv
          rw [← hv] at hrun2
          exact ih hrun2
  | eigh env n1 n2 s M rest out hs _ ih =>
      intro o2 h2
      cases h2 with
      | eigh _ _ _ _ M2 _ _ hs2 hrun2 =>
          rw [hs] at hs2
          injection hs2 with hM
          rw [← hM] at hrun2
          exact ih hrun2

/-- The (unique) final environment of the spin program under eigensolver `J`,
short of the last `vecs` binding. -/
def spinFinal (J : NPMat CQ → NPMat CQ × NPMat CQ) : SpinEnv :=
  updateEnv
    (updateEnv
      (updateEnv
        (updateEnv
          (updateEnv
            (updateEnv
              (updateEnv
                (updateEnv
                  (updateEnv (updateEnv env0 SpinVar.vI I) SpinVar.vX X)
                  SpinVar.vY Y)
                SpinVar.vZ Z)
              SpinVar.vHzn H_zn)
            SpinVar.vHze H_ze)
          SpinVar.vHz H_z)
        SpinVar.vHhf H_hf)
      SpinVar.vH H_spin)
    SpinVar.vVals (J H_spin).1

/-- One concrete run of the spin program: it reaches
`updateEnv (spinFinal J) SpinVar.vVecs (J H_spin).2`, in which `H` is bound to
`H_spin`. -/
theorem spinProgram_runs (J : NPMat CQ → NPMat CQ × NPMat CQ) :
    Run J env0 spinProgram (updateEnv (spinFinal J) SpinVar.vVecs (J H_spin).2) := by
  refine Run.assign _ _ _ _ _ _ rfl ?_
  refine Run.assign _ _ _ _ _ _ rfl ?_
  refine Run.assign _ _ _ _ _ _ rfl ?_
  refine Run.assign _ _ _ _ _ _ rfl ?_
  refine Run.assign _ _ _ _ _ _ rfl ?_
  refine Run.assign _ _ _ _ _ _ rfl ?_
  refine Run.assign _ _ _ _ _ _ rfl ?_
  refine Run.assign _ _ _ _ _ _ rfl ?_
  refine Run.assign _ _ _ _ _ _ rfl ?_
  refine Run.eigh _ _ _ _ H_spin _ _ rfl ?_
  exact Run.done _

/-- C8: with no persistent state and no concurrency, the spin-Hamiltonian
construction and its diagonalization are deterministic: any two runs of the
spin program from the same fixed constants (and any eigensolver function `J`)
reach identical final environments, in which the variable `H` is bound to the
assembled matrix `H_spin`; in particular the eigenvalue/eigenvector outputs of
the two runs coincide. -/
theorem spin_run_deterministic :
    ∀ (J : NPMat CQ → NPMat CQ × NPMat CQ) (o1 o2 : SpinEnv),
      Run J env0 spinProgram o1 → Run J env0 spinProgram o2 →
        o1 = o2 ∧ o1 SpinVar.vH = some H_spin := by
  intro J o1 o2 h1 h2
  refine ⟨run_deterministic J h1 h2, ?_⟩
  have h3 := run_deterministic J h1 (spinProgram_runs J)
  rw [h3]
  rfl

/-- A concrete eigensolver stand-in for the C8 witness. -/
def idEig : NPMat CQ → NPMat CQ × NPMat CQ := fun M => (M, M)

/-- The final environment of the witness run. -/
def spinRunOut : SpinEnv := updateEnv (spinFinal idEig) SpinVar.vVecs (idEig H_spin).2

/-- Witness for C8: the determinism theorem applied to two actual runs of the
spin program under the stand-in eigensolver. -/
theorem spin_run_deterministic_witness :
    spinRunOut = spinRunOut ∧ spinRunOut SpinVar.vH = some H_spin :=
  spin_run_deterministic idEig spinRunOut spinRunOut
    (spinProgram_runs idEig) (spinProgram_runs idEig)
